import Mathlib

/-!
Shallow embedding of the PLaMo2 decoder implementation
(`vllm/model_executor/models/plamo2.py`) used to verify the
natural-language specification of the module.  Pure functions of the
source are translated directly; the fused CUDA kernels
(`causal_conv1d_fn`, `selective_scan_fn`, ...) and vllm's `RMSNorm`
live outside this repository slice, so those parts are modelled from
the specification, as indicated in their doc comments.
-/

namespace Plamo2

/-- Embedding of `is_mamba` (plamo2.py, lines 189-195).  Layer `i`
(0-indexed) of a stack of `numHiddenLayers` layers with recurrence
period `mambaStep` is a Mamba (recurrent) layer when the result is
`true`, an attention layer when it is `false`.  The source asserts
`mamba_step > 1`; that precondition is a hypothesis of the theorems. -/
def is_mamba (numHiddenLayers mambaStep i : ℕ) : Bool :=
  if numHiddenLayers ≤ mambaStep / 2 then i != numHiddenLayers - 1
  else i % mambaStep != mambaStep / 2

/-- The scheduling rule exactly as the specification words it (spec §4.1):
layer `i` is Attention iff `(i mod period) == period/2` (integer division)
or (`total_layers <= period/2` and `i == total_layers - 1`).  This is the
spec-side definition compared against `is_mamba` from the source. -/
def attentionRuleSpec (totalLayers period i : ℕ) : Prop :=
  i % period = period / 2 ∨ (totalLayers ≤ period / 2 ∧ i = totalLayers - 1)

/-- Embedding of the `max_position_embeddings` computation of
`PlamoConfig.__init__` (plamo2.py, lines 105-108). -/
def maxPositionEmbeddings (requested : ℕ) : ℕ :=
  max (10 * 1024 * 1024) requested

/-- Embedding of `self.time_step_rank = max(64, self.hidden_size // 16)`
(`Plamo2MambaMixer.__init__`, plamo2.py line 219). -/
def timeStepRank (hiddenSize : ℕ) : ℕ :=
  max 64 (hiddenSize / 16)

/-- Output width of `x_proj` (`Plamo2MambaMixer.__init__`, plamo2.py
lines 240-245): `time_step_rank + ssm_state_size * 2`. -/
def xProjOutputSize (hiddenSize ssmStateSize : ℕ) : ℕ :=
  timeStepRank hiddenSize + ssmStateSize * 2

/-- Widths used to split the `x_proj` output into `B`, `C`, `time_step`
(`Plamo2MambaMixer.forward`, plamo2.py lines 328-332). -/
def splitWidths (hiddenSize ssmStateSize : ℕ) : List ℕ :=
  [ssmStateSize, ssmStateSize, timeStepRank hiddenSize]

/-- The configuration fields consumed by the cache-shape and mixer-shape
computations (`PlamoConfig`, plamo2.py lines 72-74, 68). -/
structure PlamoShapeConfig where
  mamba_num_heads : ℕ
  hidden_size_per_head : ℕ
  mamba_d_conv : ℕ
  mamba_d_state : ℕ

/-- `self.intermediate_size = config.mamba_num_heads *
config.hidden_size_per_head` (`Plamo2MambaMixer.__init__`, plamo2.py
lines 213-214). -/
def intermediate_size (c : PlamoShapeConfig) : ℕ :=
  c.mamba_num_heads * c.hidden_size_per_head

/-- `self.intermediate_size_per_tp_worker = self.intermediate_size //
tp_size` (`Plamo2MambaMixer.__init__`, plamo2.py line 216). -/
def intermediate_size_per_tp_worker (c : PlamoShapeConfig) (tpSize : ℕ) : ℕ :=
  intermediate_size c / tpSize

/-- Embedding of `Plamo2ForCausalLM._get_mamba_cache_shape` (plamo2.py,
lines 801-814): per-slot conv-state and temporal-state buffer shapes. -/
def getMambaCacheShape (c : PlamoShapeConfig) (worldSize : ℕ) :
    (ℕ × ℕ) × (ℕ × ℕ) :=
  ((c.mamba_num_heads * c.hidden_size_per_head / worldSize,
    c.mamba_d_conv - 1),
   (c.mamba_num_heads * c.hidden_size_per_head / worldSize,
    c.mamba_d_state))

/-- Does `pat` occur at the head of the character list?  Helper for
the Python substring and `str.replace` operations used throughout
`Plamo2ForCausalLM.load_weights` (plamo2.py, lines 833-914). -/
def matchesAt : List Char → List Char → Bool
  | [], _ => true
  | _ :: _, [] => false
  | p :: ps, c :: cs => p == c && matchesAt ps cs

/-- Does `pat` occur somewhere inside the list?  Models Python's
`old in name` substring test. -/
def hasSub (pat : List Char) : List Char → Bool
  | [] => pat.isEmpty
  | c :: cs => matchesAt pat (c :: cs) || hasSub pat cs

/-- Python's `old in name` substring test on strings. -/
def strHas (s pat : String) : Bool :=
  hasSub pat.toList s.toList

/-- Replace every (leftmost, non-overlapping) occurrence of the
non-empty pattern `p0 :: ps` by `rep`, as Python's `str.replace` does
for a non-empty pattern. -/
def replAux (p0 : Char) (ps rep : List Char) : List Char → List Char
  | [] => []
  | c :: cs =>
    if matchesAt (p0 :: ps) (c :: cs) then
      rep ++ replAux p0 ps rep (cs.drop ps.length)
    else
      c :: replAux p0 ps rep cs
  termination_by l => l.length
  decreasing_by
    · simp only [List.length_drop, List.length_cons]
      omega
    · simp only [List.length_cons]
      omega

/-- One step of the replacement loop of `load_weights` (plamo2.py,
lines 870-873): `if old in name: name = name.replace(old, new)`.
(The source never uses an empty pattern; an empty pattern leaves the
name unchanged here.) -/
def applyReplacement (name : String) (pr : String × String) : String :=
  if strHas name pr.1 then
    match pr.1.toList with
    | [] => name
    | p0 :: ps => String.mk (replAux p0 ps pr.2.toList name.toList)
  else name

/-- The ordered replacement table of `load_weights` (plamo2.py, lines
846-869).  Python dicts preserve insertion order and the source warns
"Do not change the order of the replacements". -/
def replacementTable : List (String × String) :=
  [(".layers.layers", ".layers"),
   (".mixer", ""),
   ("model.norm.weight", "model.final_layernorm.weight"),
   (".q_weight", ".q_norm.weight"),
   (".k_weight", ".k_norm.weight"),
   (".A_log", ".mamba.A"),
   (".B_norm_weight", ".mamba.b_layernorm.weight"),
   (".C_norm_weight", ".mamba.c_layernorm.weight"),
   (".dt_norm_weight", ".mamba.dt_layernorm.weight"),
   (".bcdt_proj.weight", ".mamba.x_proj.weight"),
   (".conv1d.weight", ".mamba.conv1d.weight"),
   (".in_proj.weight", ".mamba.in_proj.weight"),
   (".out_proj.weight", ".mamba.out_proj.weight"),
   (".D", ".mamba.D"),
   (".dt_bias", ".mamba.dt_proj.bias"),
   (".dt_proj.weight", ".mamba.dt_proj.weight")]

/-- The checkpoint-name-to-runtime-name translation of `load_weights`
(plamo2.py, lines 843-873): the ordered replacements applied in turn. -/
def translateName (name : String) : String :=
  replacementTable.foldl applyReplacement name

/-- The additive normalization offsets of `load_weights` (plamo2.py,
lines 897-907), applied elementwise to the loaded tensor; `w` stands
for one element.  The `if/elif` chain keys on the post-replacement
name. -/
noncomputable def applyNormOffset (name : String) (w : ℝ) : ℝ :=
  if strHas name ".pre_mixer_norm" then w + 1
  else if strHas name ".post_mixer_norm" then w + 1 / 5
  else if strHas name ".pre_mlp_norm" then w + 1
  else if strHas name ".post_mlp_norm" then w + 1 / (5 : ℝ) ^ (1.5 : ℝ)
  else if strHas name "model.final_layernorm.weight" then w + 1
  else w

/-- Outcome of processing one checkpoint tensor in `load_weights`
(plamo2.py, lines 835-914). -/
inductive LoadOutcome where
  | loaded : String → LoadOutcome
  | skippedTiedEmbedding : LoadOutcome
  | skippedOtherShard : String → LoadOutcome
  | fatalUnmapped : String → LoadOutcome
deriving DecidableEq

/-- Control flow of `load_weights` for one checkpoint tensor name
(plamo2.py, lines 835-914): a `lm_head.weight` tensor is dropped when
embeddings are tied (lines 837-841); otherwise the name is translated,
parameters of layers owned by other pipeline shards are silently
skipped (lines 908-910, `is_pp_missing_parameter` is external and kept
abstract), and the final name is looked up in `params_dict`
(line 911) — a missing key is the fatal `KeyError` surfaced to the
caller. -/
def processWeight (tieWordEmbeddings : Bool) (ppMissing : String → Bool)
    (paramsDict : List String) (name : String) : LoadOutcome :=
  if name == "lm_head.weight" && tieWordEmbeddings then
    .skippedTiedEmbedding
  else
    let n := translateName name
    if ppMissing n then .skippedOtherShard n
    else if paramsDict.contains n then .loaded n
    else .fatalUnmapped n

/-- Embedding of the `.A` broadcast of `load_weights` (plamo2.py,
lines 876-881): a per-head tensor `raw` of shape `(heads,)` becomes,
via `raw[:, None, None].expand(-1, hidden_size_per_head,
mamba_d_state).reshape(-1, mamba_d_state)`, a row list of length
`heads * hidden_size_per_head` whose rows for head `h` are all
`replicate dstate (raw h)`. -/
def broadcastRows {α : Type} (hsph dstate : ℕ) : List α → List (List α)
  | [] => []
  | a :: as =>
    List.replicate hsph (List.replicate dstate a) ++ broadcastRows hsph dstate as

/-- The hydrated `A` parameter: the broadcast rows passed through the
parameter's weight loader `lambda x: -torch.exp(x.float())`
(`Plamo2MambaMixer.__init__`, plamo2.py lines 263-265). -/
noncomputable def hydrateA (hsph dstate : ℕ) (raw : List ℝ) : List (List ℝ) :=
  (broadcastRows hsph dstate raw).map (List.map (fun x => -Real.exp x))

/-- Modelled from the spec (§4.3): vllm's `RMSNorm` fused
residual-add path, which is imported by plamo2.py but lives outside
this repository slice.  `normed, residual' = norm(activation,
residual)` means `residual' = activation + residual` and
`normed = RMSNorm(residual')`; `rms` abstracts the normalization
itself. -/
def rmsnormFused {V : Type} [Add V] (rms : V → V) (x r : V) : V × V :=
  (rms (x + r), x + r)

/-- Embedding of `Plamo2MambaDecoderLayer.forward` (plamo2.py, lines
454-474).  The four norms are abstracted by their normalization
functions, the recurrent mixer by `mixer`, and the feed-forward block
by `mlp`; `res` is the optional incoming residual. -/
def mambaLayerForward {V : Type} [Add V]
    (preMixerNorm postMixerNorm preMlpNorm postMlpNorm : V → V)
    (mixer mlp : V → V) (h : V) (res : Option V) : V × V :=
  let p :=
    match res with
    | none => (preMixerNorm h, h)
    | some r => rmsnormFused preMixerNorm h r
  let h2 := postMixerNorm (mixer p.1)
  let q := rmsnormFused preMlpNorm h2 p.2
  (postMlpNorm (mlp q.1), q.2)

/-- Embedding of `Plamo2AttentionDecoderLayer.forward` (plamo2.py,
lines 586-609); identical skeleton, with `attn` abstracting
`self_attention(positions, ·)`. -/
def attnLayerForward {V : Type} [Add V]
    (preMixerNorm postMixerNorm preMlpNorm postMlpNorm : V → V)
    (attn mlp : V → V) (h : V) (res : Option V) : V × V :=
  let p :=
    match res with
    | none => (preMixerNorm h, h)
    | some r => rmsnormFused preMixerNorm h r
  let h2 := postMixerNorm (attn p.1)
  let q := rmsnormFused preMlpNorm h2 p.2
  (postMlpNorm (mlp q.1), q.2)

section RecurrentMixer

/-!
Model of the recurrent mixer's two execution modes
(`Plamo2MambaMixer.forward`, plamo2.py lines 283-386).  The fused
kernels `causal_conv1d_fn` / `causal_conv1d_update` and
`selective_scan_fn` / `selective_state_update` are imported by
plamo2.py from outside this repository slice, so both modes are
modelled from the specification (§4.2): a causal depthwise
convolution with a `D-1`-wide carried window, followed by the
input-dependent linear state-space recurrence
`state = state * exp(step * A) + step * B * x`,
`y = C · state + D * x`, gated by the SiLU of the gate stream.
Arithmetic is exact (`ℚ`); `expFn`, `softplusFn` and `siluFn` abstract
the transcendental functions, and the projections that produce `B`,
`C` and the time step from the convolved stream (`x_proj`, the three
RMSNorms, `dt_proj` and the per-head broadcast, plamo2.py lines
323-350, identical in both modes) are abstracted by functions of the
per-token convolved vector.  `Ch` indexes the intermediate channels of
this worker, `S` the recurrence state dimension.
-/

variable {Ch S : Type} [Fintype S]

/-- One causal-convolution output sample: the kernel taps dotted
against the window of trailing inputs (per channel), then the
activation.  `kernel` lists the taps oldest-first; `padded` holds the
inputs the taps are applied to. -/
def convOutAt (act : ℚ → ℚ) (kernel padded : List (Ch → ℚ)) : Ch → ℚ :=
  fun c => act ((List.zipWith (fun k v => k c * v c) kernel padded).sum)

/-- Streaming-decode convolution (`causal_conv1d_update` branch,
plamo2.py lines 314-321): consume one token, read the carried
`D-1`-wide window, produce one sample, shift the window. -/
def convStep (act : ℚ → ℚ) (kernel window : List (Ch → ℚ)) (u : Ch → ℚ) :
    (Ch → ℚ) × List (Ch → ℚ) :=
  (convOutAt act kernel (window ++ [u]), (window ++ [u]).drop 1)

/-- Iterated streaming convolution over a token list. -/
def streamConv (act : ℚ → ℚ) (kernel : List (Ch → ℚ)) :
    List (Ch → ℚ) → List (Ch → ℚ) → List (Ch → ℚ) × List (Ch → ℚ)
  | window, [] => ([], window)
  | window, u :: us =>
    let rest := streamConv act kernel ((window ++ [u]).drop 1) us
    (convOutAt act kernel (window ++ [u]) :: rest.1, rest.2)

/-- Batched-prefill convolution (`causal_conv1d_fn` branch, plamo2.py
lines 304-312): the whole sequence is processed in one pass against
the initial window, and the final `D-1` inputs are written back as the
new window. -/
def convBatch (act : ℚ → ℚ) (kernel window us : List (Ch → ℚ)) :
    List (Ch → ℚ) × List (Ch → ℚ) :=
  ((List.range us.length).map (fun t => convOutAt act kernel ((window ++ us).drop t)),
   (window ++ us).drop us.length)

/-- Parameters of the selective-scan recurrence, modelled from spec
§4.2 steps 3-5: `bOf`, `cOf`, `stepOf` abstract the input-dependent
projections (including their RMSNorms and the per-head broadcast) as
functions of the convolved token vector, `dtBias` is the per-channel
time-step bias (per-head bias broadcast to channels), `A` the
per-channel decay exponent, `D` the per-channel skip scale. -/
structure SsmParams (Ch S : Type) where
  bOf : (Ch → ℚ) → S → ℚ
  cOf : (Ch → ℚ) → S → ℚ
  stepOf : (Ch → ℚ) → Ch → ℚ
  softplusFn : ℚ → ℚ
  dtBias : Ch → ℚ
  expFn : ℚ → ℚ
  A : Ch → S → ℚ
  D : Ch → ℚ
  siluFn : ℚ → ℚ

/-- The discretized per-channel time step: softplus of the raw step
plus the bias (spec §4.2 steps 4-5, `delta_softplus=True` /
`dt_softplus=True` with `time_proj_bias` in plamo2.py lines 352-381). -/
def deltaOf (P : SsmParams Ch S) (h : Ch → ℚ) (c : Ch) : ℚ :=
  P.softplusFn (P.stepOf h c + P.dtBias c)

/-- Per-step state decay factor `exp(step * A)`. -/
def decayOf (P : SsmParams Ch S) (h : Ch → ℚ) (c : Ch) (s : S) : ℚ :=
  P.expFn (deltaOf P h c * P.A c s)

/-- Per-step state input `step * B * x`. -/
def inputTermOf (P : SsmParams Ch S) (h : Ch → ℚ) (c : Ch) (s : S) : ℚ :=
  deltaOf P h c * P.bOf h s * h c

/-- One-step state update of the recurrence (spec §4.2 step 5):
`state = state * exp(step * A) + step * B * x`. -/
def stepState (P : SsmParams Ch S) (σ : Ch → S → ℚ) (h : Ch → ℚ) :
    Ch → S → ℚ :=
  fun c s => σ c s * decayOf P h c s + inputTermOf P h c s

/-- One-step output of the recurrence (spec §4.2 step 5):
`y = C · state + D * x`, gated by `silu(gate)`. -/
def stepOut (P : SsmParams Ch S) (σ : Ch → S → ℚ) (h g : Ch → ℚ) : Ch → ℚ :=
  fun c =>
    (Finset.sum Finset.univ (fun s => P.cOf h s * stepState P σ h c s) +
        P.D c * h c) * P.siluFn (g c)

/-- Default token used by positional lookups (never reached by the
theorems, which stay inside the sequence). -/
def tokDefault : (Ch → ℚ) × (Ch → ℚ) :=
  (fun _ => 0, fun _ => 0)

/-- Convolved-stream vector of token `t`. -/
def hAt (toks : List ((Ch → ℚ) × (Ch → ℚ))) (t : ℕ) : Ch → ℚ :=
  (toks.getD t tokDefault).1

/-- Gate-stream vector of token `t`. -/
def gAt (toks : List ((Ch → ℚ) × (Ch → ℚ))) (t : ℕ) : Ch → ℚ :=
  (toks.getD t tokDefault).2

/-- Streaming-decode recurrence (`selective_state_update` branch,
plamo2.py lines 369-381): one exact state update per token, reading
and writing the carried recurrence state. -/
def streamScan (P : SsmParams Ch S) :
    (Ch → S → ℚ) → List ((Ch → ℚ) × (Ch → ℚ)) →
      List (Ch → ℚ) × (Ch → S → ℚ)
  | σ, [] => ([], σ)
  | σ, tok :: toks =>
    let rest := streamScan P (stepState P σ tok.1) toks
    (stepOut P σ tok.1 tok.2 :: rest.1, rest.2)

/-- Closed-form state after `T` tokens of the batched parallel scan
(`selective_scan_fn` branch, plamo2.py lines 354-367; spec §4.2 step 5
notes the recurrence is linear in the state and associative, hence
computable as one parallel pass): the initial state carried through
all decays plus each input term carried through the decays after it. -/
def bStateAt (P : SsmParams Ch S) (σ0 : Ch → S → ℚ)
    (toks : List ((Ch → ℚ) × (Ch → ℚ))) (T : ℕ) : Ch → S → ℚ :=
  fun c s =>
    σ0 c s * Finset.prod (Finset.range T) (fun t => decayOf P (hAt toks t) c s) +
      Finset.sum (Finset.range T) (fun t =>
        Finset.prod (Finset.Ico (t + 1) T) (fun u => decayOf P (hAt toks u) c s) *
          inputTermOf P (hAt toks t) c s)

/-- Batched-prefill recurrence: all per-token outputs from the
closed-form states, and the final state written back to the carried
buffer. -/
def batchScan (P : SsmParams Ch S) (σ0 : Ch → S → ℚ)
    (toks : List ((Ch → ℚ) × (Ch → ℚ))) :
    List (Ch → ℚ) × (Ch → S → ℚ) :=
  ((List.range toks.length).map (fun t =>
      stepOut P (bStateAt P σ0 toks t) (hAt toks t) (gAt toks t)),
   bStateAt P σ0 toks toks.length)

/-- The state reached by iterating the one-step update `T` times. -/
def iterState (P : SsmParams Ch S) (σ0 : Ch → S → ℚ)
    (toks : List ((Ch → ℚ) × (Ch → ℚ))) : ℕ → Ch → S → ℚ
  | 0 => σ0
  | T + 1 => stepState P (iterState P σ0 toks T) (hAt toks T)

/-- One streaming-decode step of the whole mixer: convolution step on
the pre-convolution stream, then one recurrence step on the convolved
sample, with the gate stream applied (plamo2.py lines 313-321 and
368-381).  The carried state is the pair (conv window, ssm state). -/
def mixStep (P : SsmParams Ch S) (act : ℚ → ℚ) (kernel : List (Ch → ℚ))
    (st : List (Ch → ℚ) × (Ch → S → ℚ)) (tok : (Ch → ℚ) × (Ch → ℚ)) :
    (Ch → ℚ) × (List (Ch → ℚ) × (Ch → S → ℚ)) :=
  let h := convOutAt act kernel (st.1 ++ [tok.1])
  (stepOut P st.2 h tok.2,
   ((st.1 ++ [tok.1]).drop 1, stepState P st.2 h))

/-- Streaming-decode mode over a token list: one `mixStep` per token,
threading the carried buffers. -/
def streamMix (P : SsmParams Ch S) (act : ℚ → ℚ) (kernel : List (Ch → ℚ)) :
    List (Ch → ℚ) × (Ch → S → ℚ) → List ((Ch → ℚ) × (Ch → ℚ)) →
      List (Ch → ℚ) × (List (Ch → ℚ) × (Ch → S → ℚ))
  | st, [] => ([], st)
  | st, tok :: toks =>
    let rest := streamMix P act kernel (mixStep P act kernel st tok).2 toks
    ((mixStep P act kernel st tok).1 :: rest.1, rest.2)

/-- Batched-prefill mode: the batched convolution over the
pre-convolution stream, then the batched scan over the convolved
stream zipped with the gate stream (plamo2.py lines 304-312 and
354-367). -/
def prefillMix (P : SsmParams Ch S) (act : ℚ → ℚ) (kernel : List (Ch → ℚ))
    (st : List (Ch → ℚ) × (Ch → S → ℚ))
    (toks : List ((Ch → ℚ) × (Ch → ℚ))) :
    List (Ch → ℚ) × (List (Ch → ℚ) × (Ch → S → ℚ)) :=
  let cb := convBatch act kernel st.1 (toks.map Prod.fst)
  let sb := batchScan P st.2 (cb.1.zip (toks.map Prod.snd))
  (sb.1, (cb.2, sb.2))

end RecurrentMixer

/-- Concrete mixer parameters over one channel and a one-dimensional
state, used by the C2 witness. -/
def witnessParams : SsmParams (Fin 1) (Fin 1) :=
  ⟨fun h _ => h 0, fun h _ => h 0, fun h _ => h 0, id, fun _ => 0, id,
   fun _ _ => -1, fun _ => 1, id⟩

/-- Concrete width-one convolution kernel used by the C2 witness. -/
def witnessKernel : List (Fin 1 → ℚ) :=
  [fun _ => 1]

/-- Concrete token used by the C2 witness. -/
def witnessTok : (Fin 1 → ℚ) × (Fin 1 → ℚ) :=
  (fun _ => 1, fun _ => 1)

/-- C1: for `total_layers > 0`, `period > 1` and every layer index
`i < total_layers`, the source's `is_mamba` classifies layer `i` as
Attention (returns `false`) exactly when the specification's rule
`(i mod period) == period/2 ∨ (total_layers ≤ period/2 ∧
i = total_layers - 1)` holds; in particular the shallow-stack branch of
the code coincides with the rule.  Purity is immediate since `is_mamba`
is a function of `(total_layers, period, i)` alone. -/
theorem c1_scheduler_rule (n step i : ℕ) (hn : 0 < n) (hstep : 1 < step)
    (hi : i < n) :
    is_mamba n step i = false ↔ attentionRuleSpec n step i := by
  unfold is_mamba attentionRuleSpec
  by_cases hshallow : n ≤ step / 2
  · have hstep2 : step / 2 < step := Nat.div_lt_self (by omega) (by omega)
    have hlt : i < step := by
      have : n ≤ step := le_trans hshallow (le_of_lt hstep2)
      omega
    rw [if_pos hshallow, Nat.mod_eq_of_lt hlt]
    simp only [bne_eq_false_iff_eq]
    omega
  · rw [if_neg hshallow]
    simp only [bne_eq_false_iff_eq]
    constructor
    · exact fun h => Or.inl h
    · intro h
      rcases h with h | ⟨h1, _⟩
      · exact h
      · exact absurd h1 hshallow

theorem c1_scheduler_rule_witness :
    0 < 4 ∧ 1 < 2 ∧ 1 < 4 ∧
      (is_mamba 4 2 1 = false ↔ attentionRuleSpec 4 2 1) :=
  ⟨by decide, by decide, by decide,
    c1_scheduler_rule 4 2 1 (by decide) (by decide) (by decide)⟩

/-- C3: whenever `period > 1` and `total_layers ≤ period/2` (integer
division), the last layer (index `total_layers - 1`) is classified as
Attention by `is_mamba`, never as Recurrent. -/
theorem c3_last_layer_attention (n step : ℕ) (_hstep : 1 < step)
    (_hn : 0 < n) (hshallow : n ≤ step / 2) :
    is_mamba n step (n - 1) = false := by
  unfold is_mamba
  rw [if_pos hshallow]
  simp

theorem c3_last_layer_attention_witness :
    1 < 4 ∧ 0 < 2 ∧ 2 ≤ 4 / 2 ∧ is_mamba 2 4 (2 - 1) = false :=
  ⟨by decide, by decide, by decide,
    c3_last_layer_attention 2 4 (by decide) (by decide) (by decide)⟩

/-- C9 counterexample: at `requested = 10*1024*1024` the constructed
value equals the requested value even though the requested value does
not exceed `10485760`, refuting "the requested value is honored only
when it exceeds 10,485,760". -/
theorem c9_counterexample :
    maxPositionEmbeddings 10485760 = 10485760 ∧ ¬ 10485760 > 10485760 := by
  constructor
  · norm_num [maxPositionEmbeddings]
  · omega

/-- C9 (amended): the constructed `max_position_embeddings` is
`max (10*1024*1024) requested`; any requested value below `10485760` is
silently raised to that floor, and the requested value is honored
exactly when it is at least `10485760`. -/
theorem c9_max_position_floor (r : ℕ) :
    maxPositionEmbeddings r = max 10485760 r ∧
      (r < 10485760 → maxPositionEmbeddings r = 10485760) ∧
      (maxPositionEmbeddings r = r ↔ 10485760 ≤ r) := by
  unfold maxPositionEmbeddings
  norm_num [Nat.max_def]
  omega

theorem c9_max_position_floor_witness :
    maxPositionEmbeddings 0 = 10485760 :=
  (c9_max_position_floor 0).2.1 (by norm_num)

/-- C10: the recurrent mixer's time-step rank is exactly
`max 64 (hidden_size / 16)` (integer division), never falls below `64`,
and is the width of the third component split out of the `x_proj`
output (the split widths sum to the `x_proj` output width). -/
theorem c10_time_step_rank (h d : ℕ) :
    timeStepRank h = max 64 (h / 16) ∧
      64 ≤ timeStepRank h ∧
      (splitWidths h d).sum = xProjOutputSize h d := by
  refine ⟨rfl, le_max_left _ _, ?_⟩
  simp [splitWidths, xProjOutputSize]
  omega

/-- C8: the per-slot recurrent cache buffer shapes returned by
`_get_mamba_cache_shape` are exactly
`((intermediate channels per worker, conv kernel width - 1),
  (intermediate channels per worker, state dimension))`, where the
first dimension of both buffers is the mixer's
`intermediate_size_per_tp_worker`. -/
theorem c8_mamba_cache_shape (c : PlamoShapeConfig) (w : ℕ) :
    getMambaCacheShape c w =
      ((intermediate_size_per_tp_worker c w, c.mamba_d_conv - 1),
       (intermediate_size_per_tp_worker c w, c.mamba_d_state)) ∧
      (getMambaCacheShape c w).1.1 =
        c.mamba_num_heads * c.hidden_size_per_head / w :=
  ⟨rfl, rfl⟩

/-- C5: during weight loading, exactly the documented additive
constants are applied, following the source's `if/elif` chain: `+1`
for a name containing `.pre_mixer_norm`, `+1/5` for `.post_mixer_norm`,
`+1` for `.pre_mlp_norm`, `+1/(5^1.5)` for `.post_mlp_norm`, `+1` for
the final layernorm weight, and no additive offset for any other
name.  (Real runtime parameter names contain at most one of the five
markers, so the chain's guards reduce to the plain rule.) -/
theorem c5_norm_offsets (name : String) (w : ℝ) :
    (strHas name ".pre_mixer_norm" = true →
      applyNormOffset name w = w + 1) ∧
    (strHas name ".pre_mixer_norm" = false →
      strHas name ".post_mixer_norm" = true →
      applyNormOffset name w = w + 1 / 5) ∧
    (strHas name ".pre_mixer_norm" = false →
      strHas name ".post_mixer_norm" = false →
      strHas name ".pre_mlp_norm" = true →
      applyNormOffset name w = w + 1) ∧
    (strHas name ".pre_mixer_norm" = false →
      strHas name ".post_mixer_norm" = false →
      strHas name ".pre_mlp_norm" = false →
      strHas name ".post_mlp_norm" = true →
      applyNormOffset name w = w + 1 / (5 : ℝ) ^ (1.5 : ℝ)) ∧
    (strHas name ".pre_mixer_norm" = false →
      strHas name ".post_mixer_norm" = false →
      strHas name ".pre_mlp_norm" = false →
      strHas name ".post_mlp_norm" = false →
      strHas name "model.final_layernorm.weight" = true →
      applyNormOffset name w = w + 1) ∧
    (strHas name ".pre_mixer_norm" = false →
      strHas name ".post_mixer_norm" = false →
      strHas name ".pre_mlp_norm" = false →
      strHas name ".post_mlp_norm" = false →
      strHas name "model.final_layernorm.weight" = false →
      applyNormOffset name w = w) := by
  refine ⟨?_, ?_, ?_, ?_, ?_, ?_⟩ <;>
    (intros; simp [applyNormOffset, *])

theorem c5_norm_offsets_witness :
    strHas "model.layers.0.pre_mixer_norm.weight" ".pre_mixer_norm" = true ∧
    applyNormOffset "model.layers.0.pre_mixer_norm.weight" 0 = 0 + 1 :=
  ⟨by decide,
    (c5_norm_offsets "model.layers.0.pre_mixer_norm.weight" 0).1 (by decide)⟩

/-- C6: processing one checkpoint tensor in `load_weights`:
a tensor named `lm_head.weight` with tied embeddings is silently
dropped; otherwise a tensor of a layer owned by another pipeline
shard is silently skipped; otherwise a final translated name missing
from the runtime parameter dictionary is a fatal error surfaced to the
caller, and a present name is loaded. -/
theorem c6_load_outcomes (tie : Bool) (ppMissing : String → Bool)
    (paramsDict : List String) (name : String) :
    ((name == "lm_head.weight" && tie) = true →
      processWeight tie ppMissing paramsDict name = .skippedTiedEmbedding) ∧
    ((name == "lm_head.weight" && tie) = false →
      ppMissing (translateName name) = true →
      processWeight tie ppMissing paramsDict name =
        .skippedOtherShard (translateName name)) ∧
    ((name == "lm_head.weight" && tie) = false →
      ppMissing (translateName name) = false →
      paramsDict.contains (translateName name) = false →
      processWeight tie ppMissing paramsDict name =
        .fatalUnmapped (translateName name)) ∧
    ((name == "lm_head.weight" && tie) = false →
      ppMissing (translateName name) = false →
      paramsDict.contains (translateName name) = true →
      processWeight tie ppMissing paramsDict name =
        .loaded (translateName name)) := by
  refine ⟨?_, ?_, ?_, ?_⟩ <;>
    (intros; simp_all [processWeight])

theorem c6_load_outcomes_witness :
    (("lm_head.weight" == "lm_head.weight" && true) = true) ∧
    processWeight true (fun _ => false) [] "lm_head.weight" =
      .skippedTiedEmbedding :=
  ⟨by decide,
    (c6_load_outcomes true (fun _ => false) [] "lm_head.weight").1
      (by decide)⟩

theorem getD_append_lt {α : Type} (l l' : List α) (d : α) :
    ∀ n, n < l.length → (l ++ l').getD n d = l.getD n d := by
  induction l with
  | nil => intro n hn; simp at hn
  | cons a as ih =>
    intro n hn
    cases n with
    | zero => rfl
    | succ m =>
      simp only [List.cons_append, List.getD_cons_succ]
      exact ih m (by simpa using hn)

theorem getD_append_ge {α : Type} (l l' : List α) (d : α) :
    ∀ n, l.length ≤ n → (l ++ l').getD n d = l'.getD (n - l.length) d := by
  induction l with
  | nil => intro n _; simp
  | cons a as ih =>
    intro n hn
    cases n with
    | zero => simp at hn
    | succ m =>
      simp only [List.cons_append, List.getD_cons_succ, List.length_cons]
      rw [ih m (by simpa using hn)]
      congr 1
      omega

theorem getD_replicate_lt {α : Type} (a d : α) :
    ∀ m n, n < m → (List.replicate m a).getD n d = a := by
  intro m
  induction m with
  | zero => intro n hn; simp at hn
  | succ k ih =>
    intro n hn
    cases n with
    | zero => rfl
    | succ j =>
      simp only [List.replicate_succ, List.getD_cons_succ]
      exact ih j (by omega)

theorem getD_map_of_lt {α β : Type} (f : α → β) (d : α) :
    ∀ (l : List α) (n : ℕ), n < l.length →
      (l.map f).getD n (f d) = f (l.getD n d) := by
  intro l
  induction l with
  | nil => intro n hn; simp at hn
  | cons a as ih =>
    intro n hn
    cases n with
    | zero => rfl
    | succ m =>
      simp only [List.map_cons, List.getD_cons_succ]
      exact ih m (by simpa using hn)

theorem broadcastRows_length {α : Type} (hsph dstate : ℕ) (raw : List α) :
    (broadcastRows hsph dstate raw).length = raw.length * hsph := by
  induction raw with
  | nil => simp [broadcastRows]
  | cons a as ih =>
    simp only [broadcastRows, List.length_append, List.length_replicate,
      List.length_cons, ih]
    ring

theorem broadcastRows_getD {α : Type} (hsph dstate : ℕ) (dflt : α) :
    ∀ (raw : List α) (h j : ℕ), h < raw.length → j < hsph →
      (broadcastRows hsph dstate raw).getD (h * hsph + j) [] =
        List.replicate dstate (raw.getD h dflt) := by
  intro raw
  induction raw with
  | nil => intro h j hh _; simp at hh
  | cons a as ih =>
    intro h j hh hj
    cases h with
    | zero =>
      simp only [broadcastRows, Nat.zero_mul, Nat.zero_add, List.getD_cons_zero]
      rw [getD_append_lt _ _ _ j (by simpa using hj)]
      exact getD_replicate_lt _ _ hsph j hj
    | succ k =>
      simp only [broadcastRows, List.getD_cons_succ]
      rw [getD_append_ge _ _ _ ((k + 1) * hsph + j)
        (by simp only [List.length_replicate]; nlinarith)]
      have hidx : (k + 1) * hsph + j - (List.replicate hsph
          (List.replicate dstate a)).length = k * hsph + j := by
        simp only [List.length_replicate]
        have : (k + 1) * hsph = k * hsph + hsph := by ring
        omega
      rw [hidx]
      exact ih k j (by simpa using hh) hj

/-- C7: hydrating the per-head decay parameter from a checkpoint
tensor of shape `(heads,)` yields `heads * head_width` rows of width
`state_dim` in which every row of head `h` equals
`replicate state_dim (raw h)` (exact equality), and after the weight
loader applies `A = -exp raw`, every entry of the corresponding row of
the hydrated `A` equals `-exp (raw h)` — strictly negative and
constant within the head. -/
theorem c7_a_hydration (hsph dstate : ℕ) (raw : List ℝ) (h j : ℕ)
    (dflt : ℝ) (hh : h < raw.length) (hj : j < hsph) :
    (broadcastRows hsph dstate raw).length = raw.length * hsph ∧
    (broadcastRows hsph dstate raw).getD (h * hsph + j) [] =
      List.replicate dstate (raw.getD h dflt) ∧
    (hydrateA hsph dstate raw).getD (h * hsph + j) [] =
      List.replicate dstate (-Real.exp (raw.getD h dflt)) ∧
    ∀ x ∈ (hydrateA hsph dstate raw).getD (h * hsph + j) [], x < 0 := by
  have hlen := broadcastRows_length hsph dstate raw
  have hidx : h * hsph + j < (broadcastRows hsph dstate raw).length := by
    rw [hlen]
    calc h * hsph + j < h * hsph + hsph := by omega
    _ = (h + 1) * hsph := by ring
    _ ≤ raw.length * hsph := Nat.mul_le_mul_right _ (by omega)
  have hbase := broadcastRows_getD hsph dstate dflt raw h j hh hj
  have hmap : (hydrateA hsph dstate raw).getD (h * hsph + j) [] =
      List.map (fun x => -Real.exp x)
        ((broadcastRows hsph dstate raw).getD (h * hsph + j) []) := by
    unfold hydrateA
    have := getD_map_of_lt (List.map (fun x => -Real.exp x)) []
      (broadcastRows hsph dstate raw) (h * hsph + j) hidx
    simpa using this
  refine ⟨hlen, hbase, ?_, ?_⟩
  · rw [hmap, hbase, List.map_replicate]
  · intro x hx
    rw [hmap, hbase, List.map_replicate] at hx
    rw [List.eq_of_mem_replicate hx]
    exact neg_neg_iff_pos.mpr (Real.exp_pos _)

theorem c7_a_hydration_witness :
    0 < 1 ∧ 0 < 1 ∧
    ((broadcastRows 1 1 [(0 : ℝ)]).length = 1 * 1 ∧
     (broadcastRows 1 1 [(0 : ℝ)]).getD (0 * 1 + 0) [] =
       List.replicate 1 ([(0 : ℝ)].getD 0 0) ∧
     (hydrateA 1 1 [(0 : ℝ)]).getD (0 * 1 + 0) [] =
       List.replicate 1 (-Real.exp ([(0 : ℝ)].getD 0 0)) ∧
     ∀ x ∈ (hydrateA 1 1 [(0 : ℝ)]).getD (0 * 1 + 0) [], x < 0) :=
  ⟨by decide, by decide,
    c7_a_hydration 1 1 [(0 : ℝ)] 0 0 0 (by decide) (by decide)⟩

/-- C4 counterexample: with width-one streams over `ℤ`, identity
norms, identity mixer and identity feed-forward, a Mamba decoder layer
given `(activation, residual) = (1, 1)` returns residual `4`, not
`activation_in + residual_in = 2`: the residual a layer outputs also
accumulates the post-mixer-norm output, so the claim as stated is
false. -/
theorem c4_counterexample :
    ¬ ((mambaLayerForward (V := ℤ) id id id id id id 1 (some 1)).2 = 1 + 1) := by
  decide

/-- C4 (amended): residual accumulation happens inside the fused
pre-norm steps, not before them: each fused pre-norm returns
`residual' = activation + residual`; consequently, for both decoder
layer variants, the residual the layer outputs equals the post-mixer
norm output plus `activation_in + residual_in` when `residual_in` is
present, and the post-mixer norm output plus `activation_in` on the
first layer of a shard. -/
theorem c4_residual_threading (V : Type) [Add V]
    (preMixerNorm postMixerNorm preMlpNorm postMlpNorm mixer attn mlp : V → V)
    (h r : V) :
    (rmsnormFused preMixerNorm h r).2 = h + r ∧
    (mambaLayerForward preMixerNorm postMixerNorm preMlpNorm postMlpNorm
        mixer mlp h (some r)).2 =
      postMixerNorm (mixer (preMixerNorm (h + r))) + (h + r) ∧
    (mambaLayerForward preMixerNorm postMixerNorm preMlpNorm postMlpNorm
        mixer mlp h none).2 =
      postMixerNorm (mixer (preMixerNorm h)) + h ∧
    (attnLayerForward preMixerNorm postMixerNorm preMlpNorm postMlpNorm
        attn mlp h (some r)).2 =
      postMixerNorm (attn (preMixerNorm (h + r))) + (h + r) ∧
    (attnLayerForward preMixerNorm postMixerNorm preMlpNorm postMlpNorm
        attn mlp h none).2 =
      postMixerNorm (attn (preMixerNorm h)) + h :=
  ⟨rfl, rfl, rfl, rfl, rfl⟩

theorem c4_residual_threading_witness :
    (rmsnormFused (V := ℚ) id 1 1).2 = 1 + 1 ∧
    (mambaLayerForward (V := ℚ) id id id id id id 1 (some 1)).2 =
      id (id (id ((1 : ℚ) + 1))) + (1 + 1) ∧
    (mambaLayerForward (V := ℚ) id id id id id id 1 none).2 =
      id (id (id (1 : ℚ))) + 1 ∧
    (attnLayerForward (V := ℚ) id id id id id id 1 (some 1)).2 =
      id (id (id ((1 : ℚ) + 1))) + (1 + 1) ∧
    (attnLayerForward (V := ℚ) id id id id id id 1 none).2 =
      id (id (id (1 : ℚ))) + 1 :=
  c4_residual_threading ℚ id id id id id id id 1 1

theorem zipWith_trunc {α β γ : Type} (f : α → β → γ) (l1 : List α) :
    ∀ l2 : List β,
      List.zipWith f l1 l2 = List.zipWith f l1 (l2.take l1.length) := by
  induction l1 with
  | nil => intro l2; simp
  | cons a l1 ih =>
    intro l2
    cases l2 with
    | nil => simp
    | cons b l2 =>
      simp only [List.zipWith_cons_cons, List.length_cons, List.take_succ_cons]
      rw [← ih l2]

theorem convOutAt_take {Ch : Type} (act : ℚ → ℚ) (kernel padded : List (Ch → ℚ)) :
    convOutAt act kernel padded =
      convOutAt act kernel (padded.take kernel.length) := by
  funext c
  unfold convOutAt
  rw [zipWith_trunc]

theorem streamConv_eq_convBatch {Ch : Type} (act : ℚ → ℚ)
    (kernel : List (Ch → ℚ)) :
    ∀ (us window : List (Ch → ℚ)), window.length + 1 = kernel.length →
      streamConv act kernel window us = convBatch act kernel window us := by
  intro us
  induction us with
  | nil =>
    intro w _
    simp [streamConv, convBatch]
  | cons u us ih =>
    intro w hw
    have hw1 : ((w ++ [u]).drop 1).length + 1 = kernel.length := by
      simp only [List.length_drop, List.length_append, List.length_singleton]
      omega
    have hsplit : w ++ u :: us = (w ++ [u]) ++ us := by
      simp
    have hhead : convOutAt act kernel (w ++ u :: us) =
        convOutAt act kernel (w ++ [u]) := by
      rw [convOutAt_take act kernel (w ++ u :: us), ← hw]
      rw [List.take_append_eq_append_take,
        List.take_of_length_le (Nat.le_succ w.length)]
      have h1 : w.length + 1 - w.length = 1 := by omega
      rw [h1]
      simp
    have hdrop : ∀ t : ℕ, (w ++ u :: us).drop (t + 1) =
        (((w ++ [u]).drop 1) ++ us).drop t := by
      intro t
      rw [hsplit]
      rw [show t + 1 = 1 + t by omega, ← List.drop_drop]
      rw [List.drop_append_eq_append_drop]
      simp
    simp only [streamConv]
    rw [ih ((w ++ [u]).drop 1) hw1]
    unfold convBatch
    simp only [List.length_cons, Prod.mk.injEq]
    constructor
    · rw [List.range_succ_eq_map, List.map_cons, List.map_map]
      congr 1
      · rw [List.drop_zero]
        exact hhead.symm
      · congr 1
        funext t
        simp only [Function.comp]
        rw [hdrop t]
    · exact (hdrop us.length).symm

section MixerLemmas

variable {Ch S : Type}

theorem streamConv_cons (act : ℚ → ℚ) (kernel w : List (Ch → ℚ))
    (u : Ch → ℚ) (us : List (Ch → ℚ)) :
    streamConv act kernel w (u :: us) =
      (convOutAt act kernel (w ++ [u]) ::
        (streamConv act kernel ((w ++ [u]).drop 1) us).1,
       (streamConv act kernel ((w ++ [u]).drop 1) us).2) :=
  rfl

theorem streamScan_cons (P : SsmParams Ch S) [Fintype S] (σ : Ch → S → ℚ)
    (tok : (Ch → ℚ) × (Ch → ℚ)) (toks : List ((Ch → ℚ) × (Ch → ℚ))) :
    streamScan P σ (tok :: toks) =
      (stepOut P σ tok.1 tok.2 :: (streamScan P (stepState P σ tok.1) toks).1,
       (streamScan P (stepState P σ tok.1) toks).2) :=
  rfl

theorem streamMix_cons (P : SsmParams Ch S) [Fintype S] (act : ℚ → ℚ)
    (kernel : List (Ch → ℚ)) (st : List (Ch → ℚ) × (Ch → S → ℚ))
    (tok : (Ch → ℚ) × (Ch → ℚ)) (toks : List ((Ch → ℚ) × (Ch → ℚ))) :
    streamMix P act kernel st (tok :: toks) =
      ((mixStep P act kernel st tok).1 ::
        (streamMix P act kernel (mixStep P act kernel st tok).2 toks).1,
       (streamMix P act kernel (mixStep P act kernel st tok).2 toks).2) :=
  rfl

theorem bStateAt_eq_iterState (P : SsmParams Ch S) (σ0 : Ch → S → ℚ)
    (toks : List ((Ch → ℚ) × (Ch → ℚ))) :
    ∀ T, bStateAt P σ0 toks T = iterState P σ0 toks T := by
  intro T
  induction T with
  | zero =>
    funext c s
    simp [bStateAt, iterState]
  | succ T ih =>
    simp only [iterState]
    rw [← ih]
    funext c s
    have key : ∀ t ∈ Finset.range T,
        Finset.prod (Finset.Ico (t + 1) (T + 1))
            (fun u => decayOf P (hAt toks u) c s) *
          inputTermOf P (hAt toks t) c s =
        (Finset.prod (Finset.Ico (t + 1) T)
            (fun u => decayOf P (hAt toks u) c s) *
          inputTermOf P (hAt toks t) c s) * decayOf P (hAt toks T) c s := by
      intro t ht
      rw [Finset.prod_Ico_succ_top (Nat.succ_le_of_lt (Finset.mem_range.mp ht))]
      ring
    unfold bStateAt stepState
    rw [Finset.prod_range_succ, Finset.sum_range_succ, Finset.Ico_self,
      Finset.prod_empty, Finset.sum_congr rfl key, ← Finset.sum_mul]
    ring

theorem iterState_cons (P : SsmParams Ch S) (σ0 : Ch → S → ℚ)
    (tok : (Ch → ℚ) × (Ch → ℚ)) (toks : List ((Ch → ℚ) × (Ch → ℚ))) :
    ∀ t, iterState P σ0 (tok :: toks) (t + 1) =
      iterState P (stepState P σ0 tok.1) toks t := by
  intro t
  induction t with
  | zero =>
    simp [iterState, hAt, tokDefault]
  | succ k ih =>
    show stepState P (iterState P σ0 (tok :: toks) (k + 1))
        (hAt (tok :: toks) (k + 1)) =
      stepState P (iterState P (stepState P σ0 tok.1) toks k) (hAt toks k)
    rw [ih, show hAt (tok :: toks) (k + 1) = hAt toks k from by simp [hAt]]

theorem hAt_cons_succ (tok : (Ch → ℚ) × (Ch → ℚ))
    (toks : List ((Ch → ℚ) × (Ch → ℚ))) (t : ℕ) :
    hAt (tok :: toks) (t + 1) = hAt toks t := by
  simp [hAt]

theorem gAt_cons_succ (tok : (Ch → ℚ) × (Ch → ℚ))
    (toks : List ((Ch → ℚ) × (Ch → ℚ))) (t : ℕ) :
    gAt (tok :: toks) (t + 1) = gAt toks t := by
  simp [gAt]

theorem streamScan_eq (P : SsmParams Ch S) [Fintype S] :
    ∀ (toks : List ((Ch → ℚ) × (Ch → ℚ))) (σ0 : Ch → S → ℚ),
      streamScan P σ0 toks =
        ((List.range toks.length).map (fun t =>
            stepOut P (iterState P σ0 toks t) (hAt toks t) (gAt toks t)),
         iterState P σ0 toks toks.length) := by
  intro toks
  induction toks with
  | nil =>
    intro σ0
    simp [streamScan, iterState]
  | cons tok toks ih =>
    intro σ0
    rw [streamScan_cons, ih (stepState P σ0 tok.1)]
    have hmap : ((fun t => stepOut P (iterState P σ0 (tok :: toks) t)
          (hAt (tok :: toks) t) (gAt (tok :: toks) t)) ∘ Nat.succ) =
        (fun t => stepOut P (iterState P (stepState P σ0 tok.1) toks t)
          (hAt toks t) (gAt toks t)) := by
      funext t
      simp only [Function.comp]
      rw [iterState_cons, hAt_cons_succ, gAt_cons_succ]
    rw [List.length_cons, List.range_succ_eq_map, List.map_cons, List.map_map,
      hmap, iterState_cons]
    have hhead : stepOut P (iterState P σ0 (tok :: toks) 0)
        (hAt (tok :: toks) 0) (gAt (tok :: toks) 0) =
        stepOut P σ0 tok.1 tok.2 := by
      simp [iterState, hAt, gAt, tokDefault]
    rw [hhead]

theorem streamScan_eq_batchScan (P : SsmParams Ch S) [Fintype S]
    (σ0 : Ch → S → ℚ) (toks : List ((Ch → ℚ) × (Ch → ℚ))) :
    streamScan P σ0 toks = batchScan P σ0 toks := by
  rw [streamScan_eq]
  unfold batchScan
  simp only [Prod.mk.injEq]
  constructor
  · congr 1
    funext t
    rw [bStateAt_eq_iterState]
  · rw [bStateAt_eq_iterState]

theorem streamMix_eq_fused (P : SsmParams Ch S) [Fintype S] (act : ℚ → ℚ)
    (kernel : List (Ch → ℚ)) :
    ∀ (toks : List ((Ch → ℚ) × (Ch → ℚ))) (w : List (Ch → ℚ))
      (σ : Ch → S → ℚ),
      streamMix P act kernel (w, σ) toks =
        ((streamScan P σ ((streamConv act kernel w (toks.map Prod.fst)).1.zip
            (toks.map Prod.snd))).1,
         ((streamConv act kernel w (toks.map Prod.fst)).2,
          (streamScan P σ ((streamConv act kernel w (toks.map Prod.fst)).1.zip
            (toks.map Prod.snd))).2)) := by
  intro toks
  induction toks with
  | nil =>
    intro w σ
    simp [streamMix, streamConv, streamScan]
  | cons tok toks ih =>
    intro w σ
    rw [streamMix_cons, List.map_cons, List.map_cons, streamConv_cons,
      List.zip_cons_cons, streamScan_cons]
    have hm : mixStep P act kernel (w, σ) tok =
        (stepOut P σ (convOutAt act kernel (w ++ [tok.1])) tok.2,
         ((w ++ [tok.1]).drop 1,
          stepState P σ (convOutAt act kernel (w ++ [tok.1])))) := rfl
    rw [hm, ih]

theorem streamMix_append (P : SsmParams Ch S) [Fintype S] (act : ℚ → ℚ)
    (kernel : List (Ch → ℚ)) :
    ∀ (as bs : List ((Ch → ℚ) × (Ch → ℚ)))
      (st : List (Ch → ℚ) × (Ch → S → ℚ)),
      streamMix P act kernel st (as ++ bs) =
        ((streamMix P act kernel st as).1 ++
          (streamMix P act kernel (streamMix P act kernel st as).2 bs).1,
         (streamMix P act kernel (streamMix P act kernel st as).2 bs).2) := by
  intro as
  induction as with
  | nil =>
    intro bs st
    simp [streamMix]
  | cons a as ih =>
    intro bs st
    rw [List.cons_append, streamMix_cons, ih, streamMix_cons,
      List.cons_append]

theorem streamMix_length (P : SsmParams Ch S) [Fintype S] (act : ℚ → ℚ)
    (kernel : List (Ch → ℚ)) :
    ∀ (toks : List ((Ch → ℚ) × (Ch → ℚ)))
      (st : List (Ch → ℚ) × (Ch → S → ℚ)),
      (streamMix P act kernel st toks).1.length = toks.length := by
  intro toks
  induction toks with
  | nil =>
    intro st
    simp [streamMix]
  | cons tok toks ih =>
    intro st
    rw [streamMix_cons]
    simp [ih]

/-- C2: the recurrent mixer's two execution modes agree exactly.
Started from the same carried buffers (convolution window of width
`kernel width - 1` and recurrence state, with prior context), the
batched-prefill pass and the one-token-at-a-time streaming pass
produce identical per-token outputs and identical final buffers; and
streaming a continuation one token at a time, with the state handle
seeded from the prefill's final convolution-window and
recurrence-state buffers, produces exactly the per-token outputs the
batched mode produces for those tokens. -/
theorem c2_prefill_decode_equivalence (P : SsmParams Ch S) [Fintype S]
    (act : ℚ → ℚ) (kernel : List (Ch → ℚ)) (w : List (Ch → ℚ))
    (σ : Ch → S → ℚ) (toks pre rest : List ((Ch → ℚ) × (Ch → ℚ)))
    (hw : w.length + 1 = kernel.length) :
    streamMix P act kernel (w, σ) toks = prefillMix P act kernel (w, σ) toks ∧
    (streamMix P act kernel (prefillMix P act kernel (w, σ) pre).2 rest).1 =
      ((prefillMix P act kernel (w, σ) (pre ++ rest)).1).drop pre.length := by
  have hmode : ∀ ts : List ((Ch → ℚ) × (Ch → ℚ)),
      streamMix P act kernel (w, σ) ts = prefillMix P act kernel (w, σ) ts := by
    intro ts
    rw [streamMix_eq_fused]
    simp only [prefillMix]
    rw [← streamConv_eq_convBatch act kernel (ts.map Prod.fst) w hw,
      ← streamScan_eq_batchScan]
  refine ⟨hmode toks, ?_⟩
  have hlen : (streamMix P act kernel (w, σ) pre).1.length = pre.length :=
    streamMix_length P act kernel pre (w, σ)
  rw [← hmode pre, ← hmode (pre ++ rest), streamMix_append, ← hlen,
    List.drop_left]

end MixerLemmas

theorem c2_prefill_decode_equivalence_witness :
    ([] : List (Fin 1 → ℚ)).length + 1 = witnessKernel.length ∧
    (streamMix witnessParams id witnessKernel ([], fun _ _ => 0) [witnessTok] =
        prefillMix witnessParams id witnessKernel ([], fun _ _ => 0)
          [witnessTok] ∧
      (streamMix witnessParams id witnessKernel
          (prefillMix witnessParams id witnessKernel ([], fun _ _ => 0)
            [witnessTok]).2 [witnessTok]).1 =
        ((prefillMix witnessParams id witnessKernel ([], fun _ _ => 0)
          ([witnessTok] ++ [witnessTok])).1).drop [witnessTok].length) :=
  ⟨rfl, c2_prefill_decode_equivalence witnessParams id witnessKernel []
    (fun _ _ => 0) [witnessTok] [witnessTok] [witnessTok] rfl⟩

end Plamo2
